import Mathlib

/-!
Verification of the propositional entailment checker `propcheck.cc`.

The C++ program parses each line of an input file into an expression tree
(`struct Expr` with subclasses True, False, Var, Not, And, Or, Xor,
Implies, Iff), registers variable names in a global `vector<string>
variables` capped at 32 entries, and then enumerates assignment words
`x = 0 .. max`, checking whether every model of the leading lines (the
hypotheses) also satisfies the last line (the statement to check).

Machine integers: the source's `U32`/`BOOL` is `unsigned long`; all
values that arise are small (consumed lengths, 0/1 booleans, assignment
words below 2^32), so they are embedded as `Nat`.  The one place where
C integer width matters is `max |= (1 << i)` in `main`, discussed at
`maxAssign` below.
-/

/-- The expression tree of `propcheck.cc` (structs `True`, `False`, `Var`,
`Not`, `And`, `Or`, `Xor`, `Implies`, `Iff`).  `Var shift` holds the
registry index used as a shift amount, as in the source. -/
inductive Expr where
  | True : Expr
  | False : Expr
  | Var : Nat → Expr
  | Not : Expr → Expr
  | And : Expr → Expr → Expr
  | Or : Expr → Expr → Expr
  | Xor : Expr → Expr → Expr
  | Implies : Expr → Expr → Expr
  | Iff : Expr → Expr → Expr
deriving DecidableEq

/-- The evaluator: each node's `BOOL operator()(U32 x)`, line by line.
`True` returns `BOOL(1)`; `False` returns `BOOL(0)`; `Var` returns
`(x>>shift) & 1`; `Not` returns `1 ^ E(x)`; `And`/`Or`/`Xor` return the
bitwise operator applied to the operand values; `Implies` returns
`1 ^ (L(x) & (1 ^ R(x)))`; `Iff` returns `L(x) == R(x)` (a C++ `bool`
converted back to an integer, hence 1 when equal and 0 otherwise). -/
def Expr.eval : Expr → Nat → Nat
  | .True, _ => 1
  | .False, _ => 0
  | .Var shift, x => (x >>> shift) &&& 1
  | .Not e, x => 1 ^^^ e.eval x
  | .And l r, x => l.eval x &&& r.eval x
  | .Or l r, x => l.eval x ||| r.eval x
  | .Xor l r, x => l.eval x ^^^ r.eval x
  | .Implies l r, x => 1 ^^^ (l.eval x &&& (1 ^^^ r.eval x))
  | .Iff l r, x => if l.eval x = r.eval x then 1 else 0

/-- The specification's evaluator, transcribed from the spec's own words
(section 4.3): `Constant(v) -> v`, `Variable(i) -> bit i of assignment`,
`Not -> negation`, `And/Or/Xor -> conjunction/disjunction/exclusive or`,
`Implies(l,r) -> not (l and not r)`, `Iff(l,r) -> equality`.  This is the
second definition of a refinement pair; it is compared against
`Expr.eval`, which is transcribed from the source. -/
def specEval : Expr → Nat → Bool
  | .True, _ => true
  | .False, _ => false
  | .Var i, x => x.testBit i
  | .Not e, x => !(specEval e x)
  | .And l r, x => specEval l x && specEval r x
  | .Or l r, x => specEval l x || specEval r x
  | .Xor l r, x => xor (specEval l x) (specEval r x)
  | .Implies l r, x => !(specEval l x && !(specEval r x))
  | .Iff l r, x => specEval l x == specEval r x

/-- Refinement: the code's integer-valued evaluator returns exactly the
0/1 encoding of the spec's boolean evaluator, on every tree and every
assignment word. -/
theorem eval_spec (e : Expr) (x : Nat) :
    e.eval x = if specEval e x then 1 else 0 := by
  induction e with
  | True => rfl
  | False => rfl
  | Var i =>
    simp only [Expr.eval, specEval, Nat.testBit_to_div_mod,
      Nat.and_one_is_mod, Nat.shiftRight_eq_div_pow]
    rcases Nat.mod_two_eq_zero_or_one (x / 2 ^ i) with h | h <;> simp [h]
  | Not e ih =>
    cases h : specEval e x <;>
      simp [Expr.eval, specEval, ih, h]
  | And l r ihl ihr =>
    cases hl : specEval l x <;> cases hr : specEval r x <;>
      simp [Expr.eval, specEval, ihl, ihr, hl, hr]
  | Or l r ihl ihr =>
    cases hl : specEval l x <;> cases hr : specEval r x <;>
      simp [Expr.eval, specEval, ihl, ihr, hl, hr]
  | Xor l r ihl ihr =>
    cases hl : specEval l x <;> cases hr : specEval r x <;>
      simp [Expr.eval, specEval, ihl, ihr, hl, hr]
  | Implies l r ihl ihr =>
    cases hl : specEval l x <;> cases hr : specEval r x <;>
      simp [Expr.eval, specEval, ihl, ihr, hl, hr]
  | Iff l r ihl ihr =>
    cases hl : specEval l x <;> cases hr : specEval r x <;>
      simp [Expr.eval, specEval, ihl, ihr, hl, hr]

/-- Values of the evaluator are always 0 or 1. -/
theorem eval_zero_or_one (e : Expr) (x : Nat) :
    e.eval x = 0 ∨ e.eval x = 1 := by
  rw [eval_spec]
  cases specEval e x <;> simp

/-!  The entailment checker (`main`, lines 389-428). -/

/-- Width of the loop word: `U32`/`BOOL` is `unsigned long`, 64 bits on
the LP64 targets this program is built for.  (With a 32-bit
`unsigned long` every statement below still holds with 32 in place of
64, because the only fact used about the 32-variable bound is that it
is the all-ones word.) -/
def wordCap : Nat := 2 ^ 64

/-- The value contributed by the C expression `1 << i` in `main`'s
bound computation, for the shift amounts `1 ≤ i ≤ 31` that occur.
`1 << i` is `int` (32-bit) arithmetic: for `i ≤ 30` the value is
`2 ^ i`; for `i = 31` the shift overflows into the sign bit and
gcc/clang produce `INT_MIN = -2^31`, whose conversion to the unsigned
64-bit loop word is `2 ^ 64 - 2 ^ 31`. -/
def cShift1 (i : Nat) : Nat :=
  if i ≤ 30 then 2 ^ i else 2 ^ 64 - 2 ^ 31

/-- The loop bound from `main`:
`U32 max = 1; for(int i=1; i<variables.size(); i++) max |= (1<<i);`.
Note that `max` is initialised to 1 even when there are no variables,
and that with exactly 32 variables the `i = 31` term (`cShift1 31`)
sign-extends, making `max` the all-ones word `2 ^ 64 - 1`. -/
def maxAssign (nvars : Nat) : Nat :=
  ((List.range nvars).drop 1).foldl (fun m i => m ||| cShift1 i) 1

/-- The assignment words `0, 1, ..., max` in order: the values the loop
`for(U32 x=0; x<=max; x++)` visits before any wraparound of `x`.  For
at most 31 variables `max < 2^64 - 1` and this is the complete,
terminating enumeration; with 32 variables `max` is the all-ones word,
the condition `x <= max` never fails, and this list is only the first
wrap-free pass of a loop that never exits on its own (the loop's true
termination behaviour is the `Runs` relation below). -/
def enumList (nvars : Nat) : List Nat :=
  List.range (maxAssign nvars + 1)

/-- One pass of the inner loop of `main` (lines 399-404): every
proposition before the last must evaluate nonzero at `x`. -/
def axHold (axs : List Expr) (x : Nat) : Bool :=
  axs.all (fun a => a.eval x != 0)

/-- The counterexample table printed by `main` (lines 414-420): for each
registry index `j` the variable's name together with the truth value
`((U32(1)<<j) & x) != 0`. -/
def counterTable (vars : List String) (x : Nat) : List (String × Bool) :=
  vars.enum.map (fun ji => (ji.2, ((1 <<< ji.1) &&& x) != 0))

/-- Terminal outcomes of `main`: `falsified` is "Theorem is false!"
with the printed table (`return 1`); `verified` is the verified message
(`return 0`); `inconsistent` is "Axioms are not consistent!"
(`return 0`). -/
inductive Verdict where
  | falsified : Nat → List (String × Bool) → Verdict
  | verified : Verdict
  | inconsistent : Verdict
deriving DecidableEq

/-- Process exit code attached to each verdict by `main`. -/
def exitCode : Verdict → Nat
  | .falsified _ _ => 1
  | .verified => 0
  | .inconsistent => 0

/-- The enumeration loop of `main` (lines 395-423), with the remaining
assignment words and the `axiomsConsistent` flag made explicit.  At each
`x`: if some hypothesis evaluates to 0 the iteration is skipped; else the
flag is set and the last proposition is evaluated, a 0 value stopping
the whole search with the counterexample report. -/
def checkLoop (axs : List Expr) (thm : Expr) (vars : List String) :
    List Nat → Bool → Verdict
  | [], consistent => if consistent then .verified else .inconsistent
  | x :: xs, consistent =>
    if axHold axs x then
      if thm.eval x = 0 then .falsified x (counterTable vars x)
      else checkLoop axs thm vars xs true
    else checkLoop axs thm vars xs consistent

/-- The verdict the loop computes over the wrap-free pass `0 .. max`.
For at most 31 variables this is exactly what the program reports; for
32 variables the relation to the real (possibly non-terminating) loop
goes through `Runs` below. -/
def checkEntail (axs : List Expr) (thm : Expr) (vars : List String) : Verdict :=
  checkLoop axs thm vars (enumList vars.length) false

/-- The check as `main` runs it on the parsed proposition list
(`propositions[0..size-2]` are the hypotheses, `propositions[size-1]`
the statement; `main` guarantees the list is nonempty before this
point, so the default of `getLastD` is never used). -/
def checkRun (props : List Expr) (vars : List String) : Verdict :=
  checkEntail props.dropLast (props.getLastD .False) vars

/-- Big-step semantics of `main`'s enumeration loop
`for(U32 x=0; x<=max; x++)` (lines 395-423), faithful to the machine
word: `Runs ... x c v` holds when the loop, entered at counter value
`x` with `axiomsConsistent = c`, terminates with verdict `v`.  The
loop exits normally only when the condition `x <= max` fails; `x++`
wraps modulo `2^64`; a counterexample returns from inside the body.  A
run that never terminates (with `max` the all-ones word and no
counterexample, the condition never fails) has no derivation and hence
no verdict. -/
inductive Runs (axs : List Expr) (thm : Expr) (vars : List String)
    (max : Nat) : Nat → Bool → Verdict → Prop where
  | exit : ∀ x c, max < x →
      Runs axs thm vars max x c (if c then .verified else .inconsistent)
  | found : ∀ x c, x ≤ max → axHold axs x = true → thm.eval x = 0 →
      Runs axs thm vars max x c (.falsified x (counterTable vars x))
  | stepModel : ∀ x c v, x ≤ max → axHold axs x = true → thm.eval x ≠ 0 →
      Runs axs thm vars max ((x + 1) % wordCap) true v →
      Runs axs thm vars max x c v
  | stepSkip : ∀ x c v, x ≤ max → axHold axs x = false →
      Runs axs thm vars max ((x + 1) % wordCap) c v →
      Runs axs thm vars max x c v

/-- The program's whole enumeration phase: the loop entered at `x = 0`
with the consistency flag clear, against the bound `main` computed,
terminates with verdict `v`. -/
def progRuns (axs : List Expr) (thm : Expr) (vars : List String)
    (v : Verdict) : Prop :=
  Runs axs thm vars (maxAssign vars.length) 0 false v

theorem maxAssign_zero : maxAssign 0 = 1 := rfl

theorem lor_two_pow_sub_one (m : Nat) :
    (2 ^ m - 1) ||| 2 ^ m = 2 ^ (m + 1) - 1 := by
  apply Nat.eq_of_testBit_eq
  intro i
  simp only [Nat.testBit_or, Nat.testBit_two_pow_sub_one,
    Nat.testBit_two_pow]
  rcases Nat.lt_trichotomy i m with h | h | h
  · have h1 : i < m + 1 := by omega
    have h2 : m ≠ i := by omega
    simp [h, h1, h2]
  · subst h
    simp
  · have h1 : ¬ i < m := by omega
    have h2 : ¬ i < m + 1 := by omega
    have h3 : m ≠ i := by omega
    simp [h1, h2, h3]

theorem maxAssign_step (m : Nat) (hm : 1 ≤ m) :
    maxAssign (m + 1) = maxAssign m ||| cShift1 m := by
  have hlen : 1 ≤ (List.range m).length := by simp; omega
  unfold maxAssign
  rw [List.range_succ, List.drop_append_of_le_length hlen,
    List.foldl_append]
  rfl

theorem maxAssign_eq (n : Nat) (h : 1 ≤ n) (h31 : n ≤ 31) :
    maxAssign n = 2 ^ n - 1 := by
  induction n with
  | zero => omega
  | succ m ih =>
    rcases Nat.eq_or_lt_of_le h with h1 | h1
    · simp [← h1]
      rfl
    · have hm : 1 ≤ m := by omega
      have hcs : cShift1 m = 2 ^ m := by
        unfold cShift1
        rw [if_pos (by omega)]
      rw [maxAssign_step m hm, ih hm (by omega), hcs]
      exact lor_two_pow_sub_one m

theorem maxAssign_32 : maxAssign 32 = 2 ^ 64 - 1 := by
  have hcs : cShift1 31 = 2 ^ 64 - 2 ^ 31 := by
    unfold cShift1
    rw [if_neg (by omega)]
  rw [maxAssign_step 31 (by omega), maxAssign_eq 31 (by omega) (by omega), hcs]
  decide

theorem maxAssign_lt (n : Nat) (h31 : n ≤ 31) :
    maxAssign n + 1 < wordCap := by
  rcases Nat.eq_zero_or_pos n with h0 | hpos
  · subst h0
    decide
  · rw [maxAssign_eq n hpos h31]
    have h1 : (1 : Nat) ≤ 2 ^ n := Nat.one_le_two_pow
    have h2 : (2 : Nat) ^ n ≤ 2 ^ 31 := Nat.pow_le_pow_right (by omega) h31
    have h3 : (2 : Nat) ^ 31 < 2 ^ 64 := by norm_num
    simp only [wordCap]
    omega

theorem enumList_zero : enumList 0 = [0, 1] := rfl

theorem checkLoop_no_cex (axs : List Expr) (thm : Expr) (vars : List String)
    (xs : List Nat) (c : Bool)
    (h : ∀ x ∈ xs, axHold axs x = true → thm.eval x ≠ 0) :
    checkLoop axs thm vars xs c =
      if c || xs.any (axHold axs) then .verified else .inconsistent := by
  induction xs generalizing c with
  | nil => simp [checkLoop]
  | cons x xs ih =>
    have hrest : ∀ y ∈ xs, axHold axs y = true → thm.eval y ≠ 0 :=
      fun y hy => h y (by simp [hy])
    simp only [checkLoop]
    by_cases hx : axHold axs x
    · have hne : thm.eval x ≠ 0 := h x (by simp) hx
      simp [hx, hne, ih true hrest]
    · simp [hx, ih c hrest]

theorem checkLoop_cex_head (axs : List Expr) (thm : Expr) (vars : List String)
    (x : Nat) (xs : List Nat) (c : Bool)
    (hx : axHold axs x = true) (ht : thm.eval x = 0) :
    checkLoop axs thm vars (x :: xs) c = .falsified x (counterTable vars x) := by
  simp [checkLoop, hx, ht]

theorem checkLoop_first_cex (axs : List Expr) (thm : Expr) (vars : List String)
    (ys : List Nat) (x : Nat) (zs : List Nat) (c : Bool)
    (hys : ∀ y ∈ ys, axHold axs y = true → thm.eval y ≠ 0)
    (hx : axHold axs x = true) (ht : thm.eval x = 0) :
    checkLoop axs thm vars (ys ++ x :: zs) c =
      .falsified x (counterTable vars x) := by
  induction ys generalizing c with
  | nil => simpa using checkLoop_cex_head axs thm vars x zs c hx ht
  | cons y ys ih =>
    have hrest : ∀ z ∈ ys, axHold axs z = true → thm.eval z ≠ 0 :=
      fun z hz => hys z (by simp [hz])
    simp only [List.cons_append, checkLoop]
    by_cases hy : axHold axs y
    · have hne : thm.eval y ≠ 0 := hys y (by simp) hy
      simp [hy, hne, ih true hrest]
    · simp [hy, ih c hrest]

theorem checkLoop_thm_agree (axs : List Expr) (thm thm2 : Expr)
    (vars : List String) (xs : List Nat) (c : Bool)
    (h : ∀ x ∈ xs, axHold axs x = true → thm.eval x = thm2.eval x) :
    checkLoop axs thm vars xs c = checkLoop axs thm2 vars xs c := by
  induction xs generalizing c with
  | nil => rfl
  | cons x xs ih =>
    have hrest : ∀ y ∈ xs, axHold axs y = true → thm.eval y = thm2.eval y :=
      fun y hy => h y (by simp [hy])
    simp only [checkLoop]
    by_cases hx : axHold axs x
    · rw [h x (by simp) hx]
      by_cases h0 : thm2.eval x = 0 <;> simp [hx, h0, ih true hrest]
    · simp [hx, ih c hrest]

theorem range_split (N x0 : Nat) (h : x0 < N) :
    List.range N =
      List.range x0 ++
        x0 :: ((List.range (N - x0 - 1)).map (fun k => x0 + 1 + k)) := by
  have h1 : N = x0 + (1 + (N - x0 - 1)) := by omega
  conv_lhs => rw [h1]
  rw [List.range_add, List.range_add]
  simp [Nat.add_assoc, Function.comp, List.range_succ]

theorem runs_eq_checkLoop (axs : List Expr) (thm : Expr) (vars : List String)
    (max : Nat) (hcap : max + 1 < wordCap) :
    ∀ x c v, Runs axs thm vars max x c v → x ≤ max + 1 →
      v = checkLoop axs thm vars (List.range' x (max + 1 - x)) c := by
  intro x c v h
  induction h with
  | exit x c hlt =>
    intro hx
    have hx1 : x = max + 1 := by omega
    subst hx1
    have h0 : max + 1 - (max + 1) = 0 := by omega
    rw [h0]
    rfl
  | found x c hle hax ht =>
    intro _
    have hsub : max + 1 - x = (max - x) + 1 := by omega
    rw [hsub, List.range'_succ]
    simp [checkLoop, hax, ht]
  | stepModel x c v hle hax ht _ ih =>
    intro _
    have hmod : (x + 1) % wordCap = x + 1 := Nat.mod_eq_of_lt (by omega)
    rw [hmod] at ih
    have hv := ih (by omega)
    have hsub2 : max + 1 - (x + 1) = max - x := by omega
    rw [hsub2] at hv
    have hsub : max + 1 - x = (max - x) + 1 := by omega
    rw [hsub, List.range'_succ]
    simp [checkLoop, hax, ht, hv]
  | stepSkip x c v hle hax _ ih =>
    intro _
    have hmod : (x + 1) % wordCap = x + 1 := Nat.mod_eq_of_lt (by omega)
    rw [hmod] at ih
    have hv := ih (by omega)
    have hsub2 : max + 1 - (x + 1) = max - x := by omega
    rw [hsub2] at hv
    have hsub : max + 1 - x = (max - x) + 1 := by omega
    rw [hsub, List.range'_succ]
    simp [checkLoop, hax, hv]

theorem checkLoop_runs (axs : List Expr) (thm : Expr) (vars : List String)
    (max : Nat) (hcap : max + 1 < wordCap) :
    ∀ k x c, x + k = max + 1 →
      Runs axs thm vars max x c (checkLoop axs thm vars (List.range' x k) c) := by
  intro k
  induction k with
  | zero =>
    intro x c hx
    exact Runs.exit x c (by omega)
  | succ k ih =>
    intro x c hx
    have hle : x ≤ max := by omega
    have hmod : (x + 1) % wordCap = x + 1 := Nat.mod_eq_of_lt (by omega)
    rw [List.range'_succ]
    by_cases hax : axHold axs x
    · by_cases ht : thm.eval x = 0
      · have heq : checkLoop axs thm vars (x :: List.range' (x + 1) k) c
            = .falsified x (counterTable vars x) := by
          simp [checkLoop, hax, ht]
        rw [heq]
        exact Runs.found x c hle hax ht
      · have heq : checkLoop axs thm vars (x :: List.range' (x + 1) k) c
            = checkLoop axs thm vars (List.range' (x + 1) k) true := by
          simp [checkLoop, hax, ht]
        rw [heq]
        refine Runs.stepModel x c _ hle hax ht ?_
        rw [hmod]
        exact ih (x + 1) true (by omega)
    · have hax2 : axHold axs x = false := by
        simpa using hax
      have heq : checkLoop axs thm vars (x :: List.range' (x + 1) k) c
          = checkLoop axs thm vars (List.range' (x + 1) k) c := by
        simp [checkLoop, hax2]
      rw [heq]
      refine Runs.stepSkip x c _ hle hax2 ?_
      rw [hmod]
      exact ih (x + 1) c (by omega)

theorem runs_iff_checkEntail (axs : List Expr) (thm : Expr)
    (vars : List String) (h31 : vars.length ≤ 31) :
    ∀ v, progRuns axs thm vars v ↔ v = checkEntail axs thm vars := by
  have hcap := maxAssign_lt vars.length h31
  intro v
  constructor
  · intro h
    have := runs_eq_checkLoop axs thm vars (maxAssign vars.length) hcap
      0 false v h (by omega)
    rwa [checkEntail, enumList, List.range_eq_range']
  · intro h
    subst h
    have := checkLoop_runs axs thm vars (maxAssign vars.length) hcap
      (maxAssign vars.length + 1) 0 false (by omega)
    rwa [checkEntail, enumList, List.range_eq_range']

theorem runs_never (axs : List Expr) (thm : Expr) (vars : List String)
    (max : Nat) (hmax : max = wordCap - 1)
    (hnocex : ∀ x, x < wordCap → ¬(axHold axs x = true ∧ thm.eval x = 0)) :
    ∀ x c v, Runs axs thm vars max x c v → x < wordCap → False := by
  have hpos : 0 < wordCap := by decide
  intro x c v h
  induction h with
  | exit x c hlt =>
    intro hx
    omega
  | found x c hle hax ht =>
    intro hx
    exact hnocex x hx ⟨hax, ht⟩
  | stepModel x c v hle hax ht _ ih =>
    intro _
    exact ih (Nat.mod_lt _ hpos)
  | stepSkip x c v hle hax _ ih =>
    intro _
    exact ih (Nat.mod_lt _ hpos)

theorem runs_reaches_cex (axs : List Expr) (thm : Expr) (vars : List String)
    (max x0 : Nat) (hx0cap : x0 < wordCap) (hx0max : x0 ≤ max)
    (hax : axHold axs x0 = true) (ht : thm.eval x0 = 0)
    (hleast : ∀ y < x0, ¬(axHold axs y = true ∧ thm.eval y = 0)) :
    Runs axs thm vars max 0 false (.falsified x0 (counterTable vars x0)) := by
  have key : ∀ k x c, x + k = x0 →
      Runs axs thm vars max x c (.falsified x0 (counterTable vars x0)) := by
    intro k
    induction k with
    | zero =>
      intro x c hx
      have hx1 : x = x0 := by omega
      subst hx1
      exact Runs.found x c hx0max hax ht
    | succ k ih =>
      intro x c hx
      have hxlt : x < x0 := by omega
      have hle : x ≤ max := by omega
      have hmod : (x + 1) % wordCap = x + 1 := Nat.mod_eq_of_lt (by omega)
      by_cases haxx : axHold axs x
      · have htx : thm.eval x ≠ 0 := fun h0 => hleast x hxlt ⟨haxx, h0⟩
        refine Runs.stepModel x c _ hle haxx htx ?_
        rw [hmod]
        exact ih (x + 1) true (by omega)
      · have hax2 : axHold axs x = false := by simpa using haxx
        refine Runs.stepSkip x c _ hle hax2 ?_
        rw [hmod]
        exact ih (x + 1) c (by omega)
  exact key x0 0 false (by omega)

/-- C2 (amended): with at most 31 registered variables the loop
terminates and the check has exactly the three stated terminal
outcomes: the first part identifies the program run with the verdict
computed over `0 .. max`, and the three analyses give `falsified` with
exit code 1 when some enumerated assignment satisfies every hypothesis
line and falsifies the final line, `verified` with exit code 0 when
none does but some assignment satisfied all hypothesis lines, and
`inconsistent` with exit code 0 (never `verified`) when no assignment
ever satisfied them.  With exactly 32 registered variables the bound is
the all-ones word: a least counterexample is still found and reported
with exit code 1, but when no word is a counterexample the condition
`x <= max` never fails and the program reaches no verdict at all. -/
theorem c2_terminal_outcomes (axs : List Expr) (thm : Expr)
    (vars : List String) :
    (vars.length ≤ 31 →
      (∀ v, progRuns axs thm vars v ↔ v = checkEntail axs thm vars) ∧
      ((∃ x ∈ enumList vars.length, axHold axs x = true ∧ thm.eval x = 0) →
        ∃ x t, checkEntail axs thm vars = .falsified x t ∧
          exitCode (checkEntail axs thm vars) = 1)
      ∧ ((∀ x ∈ enumList vars.length, ¬(axHold axs x = true ∧ thm.eval x = 0)) →
        (∃ x ∈ enumList vars.length, axHold axs x = true) →
          checkEntail axs thm vars = .verified ∧
            exitCode (checkEntail axs thm vars) = 0)
      ∧ ((∀ x ∈ enumList vars.length, axHold axs x = false) →
          checkEntail axs thm vars = .inconsistent ∧
            checkEntail axs thm vars ≠ .verified ∧
            exitCode (checkEntail axs thm vars) = 0)) ∧
    (vars.length = 32 →
      (∀ x0, x0 < wordCap → axHold axs x0 = true → thm.eval x0 = 0 →
        (∀ y < x0, ¬(axHold axs y = true ∧ thm.eval y = 0)) →
        progRuns axs thm vars (.falsified x0 (counterTable vars x0)) ∧
          exitCode (.falsified x0 (counterTable vars x0)) = 1) ∧
      ((∀ x, x < wordCap → ¬(axHold axs x = true ∧ thm.eval x = 0)) →
        ∀ v, ¬ progRuns axs thm vars v)) := by
  constructor
  · intro h31
    refine ⟨runs_iff_checkEntail axs thm vars h31, ?_, ?_, ?_⟩
    · rintro ⟨x, hxmem, hx⟩
      have hex : ∃ y, y < maxAssign vars.length + 1 ∧
          (axHold axs y = true ∧ thm.eval y = 0) := by
        refine ⟨x, ?_, hx⟩
        simpa [enumList, List.mem_range] using hxmem
      obtain ⟨hx0N, hx0P⟩ := Nat.find_spec hex
      have hmin : ∀ y ∈ List.range (Nat.find hex),
          axHold axs y = true → thm.eval y ≠ 0 := by
        intro y hy hay h0
        have hylt : y < Nat.find hex := List.mem_range.mp hy
        exact Nat.find_min hex hylt ⟨by omega, hay, h0⟩
      have hsplit := range_split (maxAssign vars.length + 1) (Nat.find hex) hx0N
      have hrun : checkEntail axs thm vars =
          .falsified (Nat.find hex) (counterTable vars (Nat.find hex)) := by
        unfold checkEntail enumList
        rw [hsplit]
        exact checkLoop_first_cex axs thm vars _ _ _ _ hmin hx0P.1 hx0P.2
      exact ⟨Nat.find hex, counterTable vars (Nat.find hex), hrun,
        by rw [hrun]; rfl⟩
    · intro hno hmod
      have h := checkLoop_no_cex axs thm vars (enumList vars.length) false
        (fun x hx hax h0 => hno x hx ⟨hax, h0⟩)
      obtain ⟨m, hm, ham⟩ := hmod
      have hany : (enumList vars.length).any (axHold axs) = true :=
        List.any_eq_true.mpr ⟨m, hm, ham⟩
      have hver : checkEntail axs thm vars = .verified := by
        rw [checkEntail, h, hany]
        rfl
      exact ⟨hver, by rw [hver]; rfl⟩
    · intro hall
      have h := checkLoop_no_cex axs thm vars (enumList vars.length) false
        (fun x hx hax => absurd hax (by simp [hall x hx]))
      have hany : (enumList vars.length).any (axHold axs) = false := by
        simp only [List.any_eq_false]
        intro x hx
        simp [hall x hx]
      have hinc : checkEntail axs thm vars = .inconsistent := by
        rw [checkEntail, h, hany]
        rfl
      exact ⟨hinc, by rw [hinc]; exact fun hc => Verdict.noConfusion hc,
        by rw [hinc]; rfl⟩
  · intro h32
    have hmax : maxAssign vars.length = wordCap - 1 := by
      rw [h32, maxAssign_32]
      rfl
    constructor
    · intro x0 hcap hax ht hleast
      refine ⟨?_, rfl⟩
      unfold progRuns
      exact runs_reaches_cex axs thm vars _ x0 hcap (by omega) hax ht hleast
    · intro hnocex v hrun
      exact runs_never axs thm vars _ hmax hnocex 0 false v hrun (by decide)

/-- C2 witness: hypothesis `[A]`, statement `[A]`, one registered
variable; the program run terminates with verdict `verified` and exit
code 0 (the only model is `A = true` and the statement holds there). -/
theorem c2_terminal_outcomes_witness :
    progRuns [.Var 0] (.Var 0) ["A"] .verified ∧ exitCode .verified = 0 :=
  ⟨(((c2_terminal_outcomes [.Var 0] (.Var 0) ["A"]).1 (by decide)).1
      .verified).mpr (by decide), rfl⟩

/-- C3: when an enumerated assignment `x0` satisfies all hypothesis
lines and falsifies the final line, and no smaller assignment does, the
verdict reports exactly `x0` with the per-variable truth table; a
counterexample at the head of the remaining enumeration stops the search
regardless of what is left; and the result never depends on the final
line's value at assignments where some hypothesis line is false. -/
theorem c3_first_counterexample (axs : List Expr) (thm : Expr)
    (vars : List String) :
    (∀ x0 ∈ enumList vars.length, axHold axs x0 = true → thm.eval x0 = 0 →
      (∀ y < x0, ¬(axHold axs y = true ∧ thm.eval y = 0)) →
      checkEntail axs thm vars =
        .falsified x0 (vars.enum.map (fun ji => (ji.2, ((1 <<< ji.1) &&& x0) != 0))))
    ∧ (∀ x xs c, axHold axs x = true → thm.eval x = 0 →
      checkLoop axs thm vars (x :: xs) c = .falsified x (counterTable vars x))
    ∧ (∀ thm2 : Expr, (∀ x ∈ enumList vars.length, axHold axs x = true →
        thm.eval x = thm2.eval x) →
      checkEntail axs thm vars = checkEntail axs thm2 vars) := by
  refine ⟨?_, ?_, ?_⟩
  · intro x0 hmem hax ht hleast
    have hx0N : x0 < maxAssign vars.length + 1 := by
      simpa [enumList, List.mem_range] using hmem
    have hmin : ∀ y ∈ List.range x0, axHold axs y = true → thm.eval y ≠ 0 := by
      intro y hy hay h0
      exact hleast y (List.mem_range.mp hy) ⟨hay, h0⟩
    have hsplit := range_split (maxAssign vars.length + 1) x0 hx0N
    unfold checkEntail enumList
    rw [hsplit]
    exact checkLoop_first_cex axs thm vars _ _ _ _ hmin hax ht
  · intro x xs c hax ht
    exact checkLoop_cex_head axs thm vars x xs c hax ht
  · intro thm2 hagree
    exact checkLoop_thm_agree axs thm thm2 vars _ false hagree

/-- C3 witness: hypothesis `( [A] or [B] )`, statement `[A]`, registry
`A, B`.  The assignment `x = 2` (A false, B true) is the least model
falsifying the statement, and the reported table lists A as False and
B as True. -/
theorem c3_first_counterexample_witness :
    checkEntail [.Or (.Var 0) (.Var 1)] (.Var 0) ["A", "B"] =
      .falsified 2 [("A", false), ("B", true)] :=
  (c3_first_counterexample [.Or (.Var 0) (.Var 1)] (.Var 0) ["A", "B"]).1
    2 (by decide) (by decide) (by decide) (by decide)

/-- C4 (amended): for `1 ≤ n ≤ 31` registered variables the checker
enumerates exactly the assignment words `0 .. 2^n - 1` in strictly
ascending order.  The claim fails at both ends: for `n = 0` the loop
bound `max` is initialised to 1, so the code enumerates the two words
`0` and `1` (both encode the single empty assignment), not just the
word `0`; and for `n = 32` the sign-extended `1 << 31` makes `max` the
all-ones word, the loop condition `x <= max` never fails (every word
value is at most `max`), and the scan never completes, so there is no
finite enumeration `0 .. 2^32 - 1` at all. -/
theorem c4_enumeration_range (n : Nat) :
    (1 ≤ n → n ≤ 31 → enumList n = List.range (2 ^ n)) ∧
    enumList 0 = [0, 1] ∧
    (enumList n).Pairwise (· < ·) ∧
    maxAssign 32 = wordCap - 1 ∧
    (∀ x, x < wordCap → x ≤ maxAssign 32) := by
  refine ⟨fun h1 h31 => ?_, rfl, List.pairwise_lt_range _, ?_, ?_⟩
  · rw [enumList, maxAssign_eq n h1 h31,
      Nat.sub_add_cancel Nat.one_le_two_pow]
  · rw [maxAssign_32]
    rfl
  · intro x hx
    rw [maxAssign_32]
    have : wordCap = 2 ^ 64 := rfl
    omega

/-- C4 counterexample: with zero registered variables the enumerated
list is `[0, 1]`, not the single assignment `[0]` stated in the claim. -/
theorem c4_counterexample :
    enumList 0 = [0, 1] ∧ ([0, 1] : List Nat) ≠ [0] := by
  exact ⟨rfl, by decide⟩

/-- C4 witness: at `n = 3` the enumeration is `0 .. 7` ascending. -/
theorem c4_enumeration_range_witness :
    enumList 3 = List.range (2 ^ 3) :=
  (c4_enumeration_range 3).1 (by decide) (by decide)

/-- C1: for every expression tree and assignment word, the code's
evaluator is the pure structural function of the spec: it returns the
0/1 encoding of the spec's boolean evaluator (`Constant(v) -> v`,
`Variable(i) -> bit i`, `Not -> negation`, `And/Or/Xor ->
conjunction/disjunction/exclusive or`, `Implies(l,r) -> not (l and not
r)`, `Iff -> equality`).  Both sides are total Lean functions, so
evaluation has no side effects and no error condition. -/
theorem c1_eval_structural (e : Expr) (x : Nat) :
    e.eval x = if specEval e x then 1 else 0 :=
  eval_spec e x

/-- C10: the evaluator's returned machine word is exactly 0 or exactly
1 on every tree and assignment, and consequently the XOR-with-1 step
used by `Not` and `Implies` is a genuine boolean negation: it sends 0
to 1 and everything else (that is, 1) to 0. -/
theorem c10_eval_bool_invariant (e : Expr) (x : Nat) :
    (e.eval x = 0 ∨ e.eval x = 1) ∧
      (1 ^^^ e.eval x) = (if e.eval x = 0 then 1 else 0) := by
  refine ⟨eval_zero_or_one e x, ?_⟩
  rcases eval_zero_or_one e x with h | h <;> rw [h] <;> rfl

/-!
The recursive-descent parser (lines 106-347).  C strings are embedded
as `List Char`; the end of the list plays the role of the terminating
NUL byte, so "the character at the cursor is `\x00`" becomes "the
remaining list is empty".  Each parse function receives the remaining
input (the C functions receive a pointer into the line) and returns the
number of characters consumed; the C failure sentinel `return 0` with
the output parameter `p` left unset is modelled by an explicit failure
constructor, and the registry mutation plus `exit(1)` in `parseVar` by
threading the registry and a `fatal` constructor. -/

/-- `isspace` on the characters the C locale treats as whitespace. -/
def isWS (c : Char) : Bool :=
  c = ' ' || c = '\t' || c = '\n' || c = '\x0b' || c = '\x0c' || c = '\r'

/-- `skipWS` (line 109): the count of leading whitespace characters. -/
def skipWS (s : List Char) : Nat :=
  (s.takeWhile isWS).length

/-- `parseString` (line 116): consumed length is the length of `str`
when `str` is a prefix of the remaining input, else the failure
sentinel 0.  (Every `str` passed by the program is a nonempty literal
with no NUL inside, which is what the C loop relies on.) -/
def parseString (s str : List Char) : Nat :=
  if str.isPrefixOf s then str.length else 0

/-- `parseOneString` (line 129): first alternative wins. -/
def parseOneString (s str1 str2 : List Char) : Nat :=
  if parseString s str1 != 0 then parseString s str1 else parseString s str2

/-- `parseTrue` (line 137): a leading `T` consumes one character; else
the literal `true`.  The produced node and consumed count. -/
def parseTrue (s : List Char) : Option (Nat × Expr) :=
  match s with
  | 'T' :: _ => some (1, .True)
  | _ =>
    if parseString s "true".data != 0 then some (parseString s "true".data, .True)
    else none

/-- `parseFalse` (line 150). -/
def parseFalse (s : List Char) : Option (Nat × Expr) :=
  match s with
  | 'F' :: _ => some (1, .False)
  | _ =>
    if parseString s "false".data != 0 then some (parseString s "false".data, .False)
    else none

/-- The trailing-whitespace trim inside `parseVar` (lines 178-180).
The C loop backs up from the closing bracket while `isspace` holds,
guarded by `e > startstr`; since leading whitespace was already
skipped the guard never bites on a nonempty segment, and on an empty
segment both sides give the empty name. -/
def dropTrailingWS (l : List Char) : List Char :=
  (l.reverse.dropWhile isWS).reverse

/-- The registry block of `parseVar` (lines 185-198): linear search for
the name; append when absent; `exit(1)` (here `none`) when the registry
then holds more than 32 names; otherwise the index and the updated
registry. -/
def resolve (st : List String) (name : String) : Option (Nat × List String) :=
  let i := st.findIdx (fun v => v == name)
  let st2 := if st.length ≤ i then st ++ [name] else st
  if 32 < st2.length then none else some (i, st2)

/-- Result of a parse step: `fatal` models `exit(1)` from the variable
cap; `fail` models `return 0` (with the registry as the global left
it); `ok n p st` models returning `n` consumed characters with node `p`
and registry `st`. -/
inductive PR where
  | fatal : PR
  | fail : List String → PR
  | ok : Nat → Expr → List String → PR
deriving DecidableEq

/-- The registry after a parse step, as the C globals would hold it. -/
def PR.state (st : List String) : PR → List String
  | .fatal => st
  | .fail st2 => st2
  | .ok _ _ st2 => st2

/-- `parseVar` (line 164): requires a leading `[`, scans to the first
`]` (failing at end of input), takes the enclosed text with surrounding
whitespace trimmed as the name, resolves it in the registry, and
consumes through the closing bracket (`k + 2` characters when the `]`
sits `k` characters after the `[`). -/
def parseVar (s : List Char) (st : List String) : PR :=
  match s with
  | '[' :: rest =>
    match rest.findIdx? (fun c => c == ']') with
    | none => .fail st
    | some k =>
      match resolve st (String.mk (dropTrailingWS ((rest.take k).drop (skipWS rest)))) with
      | none => .fatal
      | some (i, st2) => .ok (k + 2) (.Var i) st2
  | _ => .fail st

/-- The operator-scan stop test of `parseBinaryExpr` (lines 241-243):
the scan stops at end of input, at `!`, `(`, `[`, `T`, `F`, at the
two-character lookaheads `fa`, `tr`, `no`, or at whitespace.  (At the
last character the C code reads `*(e+1) == '\0'`, which never equals
`a`, `r` or `o`; the empty `head?` plays that role.) -/
def opStop (s : List Char) : Bool :=
  match s with
  | [] => true
  | c :: rest =>
    c == '!' || c == '(' || c == '[' || c == 'T' || c == 'F' ||
    (c == 'f' && rest.head? == some 'a') ||
    (c == 't' && rest.head? == some 'r') ||
    (c == 'n' && rest.head? == some 'o') ||
    isWS c

/-- Length of the operator token: the scan loop of lines 240-243. -/
def scanOp : List Char → Nat
  | [] => 0
  | c :: rest => if opStop (c :: rest) then 0 else scanOp rest + 1

/-- The operator dispatch of `parseBinaryExpr` (lines 261-292): which
node is built from the scanned operator token, `none` for the final
`return 0`.  `if` and `<=` swap the operands (`new Implies(R,L)`);
every other token keeps textual order. -/
def mkBinOp (op : String) (L R : Expr) : Option Expr :=
  if op = "and" ∨ op = "&" then some (.And L R)
  else if op = "or" ∨ op = "|" then some (.Or L R)
  else if op = "xor" ∨ op = "^" then some (.Xor L R)
  else if op = "then" ∨ op = "implies" ∨ op = "=>" then some (.Implies L R)
  else if op = "if" ∨ op = "<=" then some (.Implies R L)
  else if op = "iff" ∨ op = "<=>" then some (.Iff L R)
  else none

theorem parseString_le (s t : List Char) : parseString s t ≤ s.length := by
  unfold parseString
  split
  · next h => exact (List.isPrefixOf_iff_prefix.mp h).length_le
  · exact Nat.zero_le _

theorem parseOneString_le (s a b : List Char) :
    parseOneString s a b ≤ s.length := by
  unfold parseOneString
  split
  · exact parseString_le s a
  · exact parseString_le s b

/-- Tail of `parseBinaryExpr` (lines 255-292): after the right operand,
skip whitespace, require `)`, and dispatch on the operator token.  `c3`
is the character count consumed so far (up to and including the right
operand); `r4` is the remaining input there; a successful parse
consumes `c3` plus the closing whitespace plus the bracket. -/
def parseBinClose (c3 : Nat) (op : String) (L R : Expr) (r4 : List Char)
    (st : List String) : PR :=
  match r4.drop (skipWS r4) with
  | ')' :: _ =>
    match mkBinOp op L R with
    | some E => .ok (c3 + skipWS r4 + 1) E st
    | none => .fail st
  | _ => .fail st

mutual

/-- `parseNot` (line 202): a `!` or `not` token followed by an
expression.  The sub-parse is `parseExpr` on the input after the token;
its consumed count is added to the token length. -/
def parseNot (s : List Char) (st : List String) : PR :=
  match hn : parseOneString s ['!'] "not".data with
  | 0 => .fail st
  | n + 1 =>
    match parseExpr (s.drop (n + 1)) st with
    | .fatal => .fatal
    | .fail st2 => .fail st2
    | .ok m L st2 => .ok (n + 1 + m) (.Not L) st2
termination_by 7 * s.length + 1
decreasing_by
  have hle := parseOneString_le s ['!'] "not".data
  rw [hn] at hle
  simp only [List.length_drop]
  omega

/-- `parseBinaryExpr` (line 221): skip whitespace, require `(`, parse
the left operand, then hand the cursor after the left operand to the
operator/right-operand stages.  The count accumulator starts at
`skipWS s + 1 + nL` (whitespace, open bracket, left operand).  The
redundant `skipWS` calls of lines 231, 245 and 248 are subsumed by the
leading whitespace skip inside the recursive `parseExpr` calls, so
every consumed count and every intermediate cursor position is
unchanged from the C original. -/
def parseBinaryExpr (s : List Char) (st : List String) : PR :=
  match hs : s.drop (skipWS s) with
  | '(' :: rest =>
    match parseExpr rest st with
    | .fatal => .fatal
    | .fail st2 => .fail st2
    | .ok nL L st2 => parseBinWS (skipWS s + 1 + nL) L (rest.drop nL) st2
  | _ => .fail st
termination_by 7 * s.length + 1
decreasing_by
  all_goals
    (have hlen := congrArg List.length hs;
     simp only [List.length_drop, List.length_cons] at hlen;
     try simp only [List.length_drop];
     omega)

/-- The whitespace skip before the operator token (line 239): `r1` is
the input after the left operand. -/
def parseBinWS (c0 : Nat) (L : Expr) (r1 : List Char) (st : List String) : PR :=
  parseBinTok (c0 + skipWS r1) L (r1.drop (skipWS r1)) st
termination_by 7 * r1.length + 6
decreasing_by
  simp only [List.length_drop]
  omega

/-- The operator-token scan (lines 240-244): `r2` starts at the first
character of the token; the scanned run becomes the operator string. -/
def parseBinTok (c1 : Nat) (L : Expr) (r2 : List Char) (st : List String) : PR :=
  parseBinRight (c1 + scanOp r2) (String.mk (r2.take (scanOp r2))) L
    (r2.drop (scanOp r2)) st
termination_by 7 * r2.length + 5
decreasing_by
  simp only [List.length_drop]
  omega

/-- The right-operand parse (lines 247-253): `r3` is the input after
the operator token (parseExpr performs the whitespace skips of lines
245 and 248 itself). -/
def parseBinRight (c2 : Nat) (op : String) (L : Expr) (r3 : List Char)
    (st : List String) : PR :=
  match parseExpr r3 st with
  | .fatal => .fatal
  | .fail st3 => .fail st3
  | .ok nR R st3 => parseBinClose (c2 + nR) op L R (r3.drop nR) st3
termination_by 7 * r3.length + 4
decreasing_by
  omega

/-- `parseExpr` (line 295): skip whitespace, then try `parseTrue`,
`parseFalse`, `parseVar`, `parseNot`, `parseBinaryExpr` in that order;
the first success wins and the whitespace count is added to its
consumed count.  A failing alternative leaves the registry as the
globals would stand (only a failing `parseNot` can have grown it). -/
def parseExpr (s : List Char) (st : List String) : PR :=
  match parseTrue (s.drop (skipWS s)) with
  | some (n, p) => .ok (skipWS s + n) p st
  | none =>
    match parseFalse (s.drop (skipWS s)) with
    | some (n, p) => .ok (skipWS s + n) p st
    | none =>
      match parseVar (s.drop (skipWS s)) st with
      | .fatal => .fatal
      | .ok n p st2 => .ok (skipWS s + n) p st2
      | .fail st2 =>
        match parseNot (s.drop (skipWS s)) st2 with
        | .fatal => .fatal
        | .ok n p st3 => .ok (skipWS s + n) p st3
        | .fail st3 =>
          match parseBinaryExpr (s.drop (skipWS s)) st3 with
          | .fatal => .fatal
          | .ok n p st4 => .ok (skipWS s + n) p st4
          | .fail st4 => .fail st4
termination_by 7 * s.length + 2
decreasing_by
  · simp only [List.length_drop]
    omega
  · simp only [List.length_drop]
    omega

end

/-- The auto-parenthesised line of `parseTopLevelExpr` (line 338):
`"(" + s + ")"`. -/
def wrapLine (s : List Char) : List Char :=
  '(' :: (s ++ [')'])

/-- The full-consumption test of `parseTopLevelExpr` (lines 331-335 and
340-344): after a parse of `s` returning `n`, skip whitespace and
require the NUL terminator; on success the whole trimmed length
`n + skipWS (s.drop n)` is returned together with the node and
registry. -/
def attemptOk (s : List Char) : PR → Option (Nat × Expr × List String)
  | .ok n p st2 =>
    if n != 0 && (s.drop (n + skipWS (s.drop n))).isEmpty then
      some (n + skipWS (s.drop n), p, st2)
    else none
  | _ => none

/-- `parseTopLevelExpr` (line 328): parse the raw line requiring full
consumption; if that fails, parse `"(" + line + ")"` with the same
requirement (the registry keeps whatever the first attempt added, as
the C globals do); fail only if both attempts fail.  An `exit(1)` from
the variable cap aborts everything. -/
def parseTopLevelExpr (s : List Char) (st : List String) : PR :=
  if parseExpr s st = .fatal then .fatal
  else
    match attemptOk s (parseExpr s st) with
    | some (n, p, st2) => .ok n p st2
    | none =>
      if parseExpr (wrapLine s) ((parseExpr s st).state st) = .fatal then .fatal
      else
        match attemptOk (wrapLine s)
            (parseExpr (wrapLine s) ((parseExpr s st).state st)) with
        | some (m, q, st3) => .ok m q st3
        | none => .fail ((parseExpr (wrapLine s) ((parseExpr s st).state st)).state
            ((parseExpr s st).state st))

/-- What `main` does with one proposition line (lines 373-379): a
failed top-level parse prints the syntax error and exits with code 1;
the variable-cap `exit(1)` also ends the process with code 1; otherwise
the tree is appended and reading continues. -/
def parseLine (s : List Char) (st : List String) : Except Nat (Expr × List String) :=
  match parseTopLevelExpr s st with
  | .fatal => .error 1
  | .fail _ => .error 1
  | .ok _ p st2 => .ok (p, st2)

theorem parseTrue_pos (s : List Char) (n : Nat) (p : Expr)
    (h : parseTrue s = some (n, p)) : 0 < n := by
  unfold parseTrue at h
  split at h
  · simp only [Option.some.injEq, Prod.mk.injEq] at h
    omega
  · split at h
    · next hc =>
      simp only [Option.some.injEq, Prod.mk.injEq] at h
      simp only [bne_iff_ne, ne_eq] at hc
      omega
    · exact absurd h (by simp)

theorem parseFalse_pos (s : List Char) (n : Nat) (p : Expr)
    (h : parseFalse s = some (n, p)) : 0 < n := by
  unfold parseFalse at h
  split at h
  · simp only [Option.some.injEq, Prod.mk.injEq] at h
    omega
  · split at h
    · next hc =>
      simp only [Option.some.injEq, Prod.mk.injEq] at h
      simp only [bne_iff_ne, ne_eq] at hc
      omega
    · exact absurd h (by simp)

theorem parseVar_pos (s : List Char) (st : List String) (n : Nat) (p : Expr)
    (st2 : List String) (h : parseVar s st = .ok n p st2) : 0 < n := by
  unfold parseVar at h
  split at h
  · split at h
    · exact absurd h (by simp)
    · split at h
      · exact absurd h (by simp)
      · simp only [PR.ok.injEq] at h
        omega
  · exact absurd h (by simp)

theorem parseNot_pos (s : List Char) (st : List String) (n : Nat) (p : Expr)
    (st2 : List String) (h : parseNot s st = .ok n p st2) : 0 < n := by
  rw [parseNot.eq_def] at h
  split at h
  · exact absurd h (by simp)
  · split at h
    · exact absurd h (by simp)
    · exact absurd h (by simp)
    · simp only [PR.ok.injEq] at h
      omega

theorem parseBinClose_pos (c3 : Nat) (op : String) (L R : Expr)
    (r4 : List Char) (st : List String) (n : Nat) (p : Expr)
    (st2 : List String) (h : parseBinClose c3 op L R r4 st = .ok n p st2) :
    0 < n := by
  unfold parseBinClose at h
  split at h
  · split at h
    · simp only [PR.ok.injEq] at h
      omega
    · exact absurd h (by simp)
  · exact absurd h (by simp)

theorem parseBinRight_pos (c2 : Nat) (op : String) (L : Expr) (r3 : List Char)
    (st : List String) (n : Nat) (p : Expr) (st2 : List String)
    (h : parseBinRight c2 op L r3 st = .ok n p st2) : 0 < n := by
  rw [parseBinRight.eq_def] at h
  split at h
  · exact absurd h (by simp)
  · exact absurd h (by simp)
  · exact parseBinClose_pos _ _ _ _ _ _ _ _ _ h

theorem parseBinaryExpr_pos (s : List Char) (st : List String) (n : Nat)
    (p : Expr) (st2 : List String) (h : parseBinaryExpr s st = .ok n p st2) :
    0 < n := by
  rw [parseBinaryExpr.eq_def] at h
  split at h
  · split at h
    · exact absurd h (by simp)
    · exact absurd h (by simp)
    · rw [parseBinWS.eq_def, parseBinTok.eq_def] at h
      exact parseBinRight_pos _ _ _ _ _ _ _ _ h
  · exact absurd h (by simp)

theorem parseExpr_pos (s : List Char) (st : List String) (n : Nat) (p : Expr)
    (st2 : List String) (h : parseExpr s st = .ok n p st2) : 0 < n := by
  rw [parseExpr.eq_def] at h
  split at h
  · next n1 p1 h1 =>
    simp only [PR.ok.injEq] at h
    have := parseTrue_pos _ _ _ h1
    omega
  · split at h
    · next n1 p1 h1 =>
      simp only [PR.ok.injEq] at h
      have := parseFalse_pos _ _ _ h1
      omega
    · split at h
      · exact absurd h (by simp)
      · next n1 p1 st1 h1 =>
        simp only [PR.ok.injEq] at h
        have := parseVar_pos _ _ _ _ _ h1
        omega
      · split at h
        · exact absurd h (by simp)
        · next n1 p1 st1 h1 =>
          simp only [PR.ok.injEq] at h
          have := parseNot_pos _ _ _ _ _ h1
          omega
        · split at h
          · exact absurd h (by simp)
          · next n1 p1 st1 h1 =>
            simp only [PR.ok.injEq] at h
            have := parseBinaryExpr_pos _ _ _ _ _ h1
            omega
          · exact absurd h (by simp)

/-- C8: every parse function returns the number of characters consumed
with 0 as the failure sentinel, and no production can match a
zero-length span: whenever any of the parse functions succeeds in
producing a node, the consumed length is strictly positive. -/
theorem c8_no_zero_length_match :
    (∀ s n p, parseTrue s = some (n, p) → 0 < n) ∧
    (∀ s n p, parseFalse s = some (n, p) → 0 < n) ∧
    (∀ s st n p st2, parseVar s st = .ok n p st2 → 0 < n) ∧
    (∀ s st n p st2, parseNot s st = .ok n p st2 → 0 < n) ∧
    (∀ s st n p st2, parseBinaryExpr s st = .ok n p st2 → 0 < n) ∧
    (∀ s st n p st2, parseExpr s st = .ok n p st2 → 0 < n) :=
  ⟨parseTrue_pos, parseFalse_pos, parseVar_pos, parseNot_pos,
    parseBinaryExpr_pos, parseExpr_pos⟩

/-- C8 witness: `parseTrue` on the single character `T` succeeds
consuming one character, and the theorem yields its positivity. -/
theorem c8_no_zero_length_match_witness : 0 < 1 :=
  c8_no_zero_length_match.1 ['T'] 1 .True rfl

theorem resolve_characterize (st : List String) (name : String) :
    resolve st name =
      if name ∈ st then
        (if 32 < st.length then none
         else some (st.findIdx (fun v => v == name), st))
      else
        (if 32 < st.length + 1 then none
         else some (st.length, st ++ [name])) := by
  unfold resolve
  dsimp only
  by_cases hm : name ∈ st
  · have hlt : st.findIdx (fun v => v == name) < st.length :=
      List.findIdx_lt_length_of_exists ⟨name, hm, by simp⟩
    rw [if_neg (Nat.not_le.mpr hlt), if_pos hm]
  · have hfi : st.findIdx (fun v => v == name) = st.length :=
      List.findIdx_eq_length.mpr (fun x hx => by
        simp only [beq_eq_false_iff_ne, ne_eq]
        exact fun hxe => hm (hxe ▸ hx))
    rw [hfi, if_pos (Nat.le_refl _), if_neg hm, List.length_append,
      List.length_singleton]

/-- C5: resolving a name already in the registry returns its existing
index and leaves the registry unchanged, and resolving it again
returns the same index; a new name is appended at the next free index
(so the 32nd distinct name still succeeds when 31 are present); the
33rd distinct name, and exactly the 33rd, makes the resolution fatal;
and a fatal parse ends the run with exit code 1. -/
theorem c5_registry_resolve :
    (∀ st name i st2, resolve st name = some (i, st2) →
      resolve st2 name = some (i, st2)) ∧
    (∀ st (name : String), name ∈ st → st.length ≤ 32 →
      ∃ i, resolve st name = some (i, st) ∧ st[i]? = some name) ∧
    (∀ st (name : String), name ∉ st → st.length < 32 →
      resolve st name = some (st.length, st ++ [name])) ∧
    (∀ st (name : String), name ∉ st → st.length = 32 →
      resolve st name = none) ∧
    (∀ s st, parseTopLevelExpr s st = .fatal → parseLine s st = .error 1) := by
  have hmem : ∀ (st : List String) (name : String), name ∈ st →
      st.length ≤ 32 → resolve st name =
        some (st.findIdx (fun v => v == name), st) := by
    intro st name hm hlen
    rw [resolve_characterize, if_pos hm, if_neg (by omega)]
  have happ : ∀ (st : List String) (name : String), name ∉ st →
      st.length < 32 → resolve st name = some (st.length, st ++ [name]) := by
    intro st name hm hlen
    rw [resolve_characterize, if_neg hm, if_neg (by omega)]
  refine ⟨?_, ?_, happ, ?_, ?_⟩
  · intro st name i st2 h
    rw [resolve_characterize] at h
    by_cases hm : name ∈ st
    · rw [if_pos hm] at h
      by_cases hlen : 32 < st.length
      · rw [if_pos hlen] at h
        exact absurd h (by simp)
      · rw [if_neg hlen] at h
        simp only [Option.some.injEq, Prod.mk.injEq] at h
        obtain ⟨hi, hst⟩ := h
        subst hst
        rw [hmem st name hm (by omega), hi]
    · rw [if_neg hm] at h
      by_cases hlen : 32 < st.length + 1
      · rw [if_pos hlen] at h
        exact absurd h (by simp)
      · rw [if_neg hlen] at h
        simp only [Option.some.injEq, Prod.mk.injEq] at h
        obtain ⟨hi, hst⟩ := h
        have hfi : st.findIdx (fun v => v == name) = st.length :=
          List.findIdx_eq_length.mpr (fun x hx => by
            simp only [beq_eq_false_iff_ne, ne_eq]
            exact fun hxe => hm (hxe ▸ hx))
        have hm2 : name ∈ st2 := by
          rw [← hst]
          exact List.mem_append_right st (by simp)
        have hfi2 : st2.findIdx (fun v => v == name) = st.length := by
          rw [← hst, List.findIdx_append, hfi, if_neg (by omega)]
          simp [List.findIdx_cons]
        have hlen2 : st2.length ≤ 32 := by
          rw [← hst, List.length_append, List.length_singleton]
          omega
        rw [hmem st2 name hm2 hlen2, hfi2, hi]
  · intro st name hm hlen
    refine ⟨st.findIdx (fun v => v == name), hmem st name hm hlen, ?_⟩
    have hlt : st.findIdx (fun v => v == name) < st.length :=
      List.findIdx_lt_length_of_exists ⟨name, hm, by simp⟩
    have hget := @List.findIdx_getElem String (fun v => v == name) st hlt
    rw [List.getElem?_eq_getElem hlt]
    simpa using congrArg some (eq_of_beq hget)
  · intro st name hm hlen
    rw [resolve_characterize, if_neg hm, if_pos (by omega)]
  · intro s st h
    unfold parseLine
    rw [h]

/-- A registry holding 32 distinct names, for exercising the cap. -/
def fullRegistry : List String :=
  ["v00", "v01", "v02", "v03", "v04", "v05", "v06", "v07",
   "v08", "v09", "v10", "v11", "v12", "v13", "v14", "v15",
   "v16", "v17", "v18", "v19", "v20", "v21", "v22", "v23",
   "v24", "v25", "v26", "v27", "v28", "v29", "v30", "v31"]

/-- C2 counterexample: hypothesis line `F` (constant false), statement
`T`, and 32 registered variables.  No assignment ever satisfies the
hypothesis, so the claim prescribes the verdict "axioms are not
consistent" with exit code 0; but the program's enumeration loop never
terminates there (the bound is the all-ones word and no counterexample
exists), so no run produces that verdict — or any verdict. -/
theorem c2_counterexample :
    ¬ progRuns [Expr.False] Expr.True fullRegistry Verdict.inconsistent := by
  intro h
  have hmax : maxAssign fullRegistry.length = wordCap - 1 := by
    have hlen : fullRegistry.length = 32 := rfl
    rw [hlen, maxAssign_32]
    rfl
  refine runs_never [Expr.False] Expr.True fullRegistry _ hmax ?_ 0 false
    Verdict.inconsistent h (by decide)
  intro x _ hcex
  simp [axHold, Expr.eval] at hcex

/-- C5 witness: with the 32-entry registry, resolving the fresh name
`z` is fatal (the 33rd distinct name), while a 31-entry registry still
accepts a 32nd name at index 31. -/
theorem c5_registry_resolve_witness :
    resolve fullRegistry "z" = none ∧
    resolve (fullRegistry.dropLast) "z" =
      some (31, fullRegistry.dropLast ++ ["z"]) :=
  ⟨c5_registry_resolve.2.2.2.1 fullRegistry "z" (by decide) (by decide),
   c5_registry_resolve.2.2.1 fullRegistry.dropLast "z" (by decide) (by decide)⟩

/-- C6: for every input line, the top-level parse first attempts the
raw line as a single expression consuming the whole whitespace-trimmed
line; if that full-consumption test fails it retries on the line
wrapped in one added pair of parentheses with the same test; and the
line is a syntax error — reported fatally with exit code 1 — exactly
when both attempts fail.  (The two hypotheses set aside the
variable-cap `exit(1)`, which aborts before any verdict.) -/
theorem c6_top_level_two_attempts (s : List Char) (st : List String)
    (h1 : parseExpr s st ≠ .fatal)
    (h2 : parseExpr (wrapLine s) ((parseExpr s st).state st) ≠ .fatal) :
    ((∃ st2, parseTopLevelExpr s st = .fail st2) ↔
      attemptOk s (parseExpr s st) = none ∧
      attemptOk (wrapLine s)
        (parseExpr (wrapLine s) ((parseExpr s st).state st)) = none) ∧
    (∀ n p st2, attemptOk s (parseExpr s st) = some (n, p, st2) →
      parseTopLevelExpr s st = .ok n p st2) ∧
    (∀ st2, parseTopLevelExpr s st = .fail st2 → parseLine s st = .error 1) := by
  cases hA : attemptOk s (parseExpr s st) with
  | some v =>
    obtain ⟨n, p, st2⟩ := v
    have hT : parseTopLevelExpr s st = .ok n p st2 := by
      simp only [parseTopLevelExpr, if_neg h1, hA]
    refine ⟨?_, ?_, ?_⟩
    · constructor
      · rintro ⟨st3, hst3⟩
        rw [hT] at hst3
        exact absurd hst3 (by simp)
      · rintro ⟨hnone, _⟩
        exact Option.noConfusion hnone
    · intro n1 p1 st3 hsome
      simp only [Option.some.injEq, Prod.mk.injEq] at hsome
      rw [hT, hsome.1, hsome.2.1, hsome.2.2]
    · intro st3 hst3
      rw [hT] at hst3
      exact absurd hst3 (by simp)
  | none =>
    cases hB : attemptOk (wrapLine s)
        (parseExpr (wrapLine s) ((parseExpr s st).state st)) with
    | some v =>
      obtain ⟨m, q, st3⟩ := v
      have hT : parseTopLevelExpr s st = .ok m q st3 := by
        simp only [parseTopLevelExpr, if_neg h1, hA, if_neg h2, hB]
      refine ⟨?_, ?_, ?_⟩
      · constructor
        · rintro ⟨st4, hst4⟩
          rw [hT] at hst4
          exact absurd hst4 (by simp)
        · rintro ⟨_, hnone⟩
          exact Option.noConfusion hnone
      · intro n1 p1 st4 hsome
        exact Option.noConfusion hsome
      · intro st4 hst4
        rw [hT] at hst4
        exact absurd hst4 (by simp)
    | none =>
      have hT : parseTopLevelExpr s st =
          .fail ((parseExpr (wrapLine s) ((parseExpr s st).state st)).state
            ((parseExpr s st).state st)) := by
        simp only [parseTopLevelExpr, if_neg h1, hA, if_neg h2, hB]
      refine ⟨?_, ?_, ?_⟩
      · exact ⟨fun _ => ⟨rfl, rfl⟩, fun _ => ⟨_, hT⟩⟩
      · intro n1 p1 st4 hsome
        exact Option.noConfusion hsome
      · intro st4 _
        simp only [parseLine, hT]

unseal parseExpr parseNot parseBinaryExpr parseBinWS parseBinTok parseBinRight in
/-- C6 witness: the line `[A` (unclosed bracket) fails both the raw and
the wrapped attempt, so the top-level parse fails and the line is
rejected with exit code 1. -/
theorem c6_top_level_two_attempts_witness :
    (∃ st2, parseTopLevelExpr "[A".data [] = .fail st2) ∧
    parseLine "[A".data [] = .error 1 := by
  obtain ⟨st2, hst2⟩ :=
    (c6_top_level_two_attempts "[A".data [] (by decide) (by decide)).1.mpr
      ⟨by decide, by decide⟩
  exact ⟨⟨st2, hst2⟩,
    (c6_top_level_two_attempts "[A".data [] (by decide) (by decide)).2.2 st2 hst2⟩

unseal parseExpr parseNot parseBinaryExpr parseBinWS parseBinTok parseBinRight in
/-- C7: the operator tokens `if` and `<=` construct `Implies` with the
operands swapped relative to textual order, and every other operator
token constructs its node with operands in textual order; consequently
`( [A] if [B] )` parses to exactly the same tree as `( [B] => [A] )`
(with the registry already holding `A` and `B`, both give
`Implies (Var 1) (Var 0)`, consuming the whole 14-character line). -/
theorem c7_if_swaps_operands :
    (∀ L R : Expr,
      mkBinOp "if" L R = some (.Implies R L) ∧
      mkBinOp "<=" L R = some (.Implies R L) ∧
      mkBinOp "and" L R = some (.And L R) ∧
      mkBinOp "&" L R = some (.And L R) ∧
      mkBinOp "or" L R = some (.Or L R) ∧
      mkBinOp "|" L R = some (.Or L R) ∧
      mkBinOp "xor" L R = some (.Xor L R) ∧
      mkBinOp "^" L R = some (.Xor L R) ∧
      mkBinOp "then" L R = some (.Implies L R) ∧
      mkBinOp "implies" L R = some (.Implies L R) ∧
      mkBinOp "=>" L R = some (.Implies L R) ∧
      mkBinOp "iff" L R = some (.Iff L R) ∧
      mkBinOp "<=>" L R = some (.Iff L R)) ∧
    parseTopLevelExpr "( [A] if [B] )".data ["A", "B"] =
      .ok 14 (.Implies (.Var 1) (.Var 0)) ["A", "B"] ∧
    parseTopLevelExpr "( [B] => [A] )".data ["A", "B"] =
      .ok 14 (.Implies (.Var 1) (.Var 0)) ["A", "B"] :=
  ⟨fun L R => ⟨rfl, rfl, rfl, rfl, rfl, rfl, rfl, rfl, rfl, rfl, rfl, rfl, rfl⟩,
    rfl, rfl⟩

unseal parseExpr parseNot parseBinaryExpr parseBinWS parseBinTok parseBinRight in
/-- C9: parsing `[X]` gives the variable node at registry index 0 and
parsing `not not [X]` gives its double negation; the two trees evaluate
identically on every assignment word, both to bit 0 of the word. -/
theorem c9_double_negation :
    parseTopLevelExpr "[X]".data [] = .ok 3 (.Var 0) ["X"] ∧
    parseTopLevelExpr "not not [X]".data [] =
      .ok 11 (.Not (.Not (.Var 0))) ["X"] ∧
    (∀ x : Nat, (Expr.Not (.Not (.Var 0))).eval x = (Expr.Var 0).eval x ∧
      (Expr.Var 0).eval x = (x >>> 0) &&& 1) :=
  ⟨rfl, rfl, fun x => by
    refine ⟨?_, rfl⟩
    simp only [Expr.eval, ← Nat.xor_assoc]
    simp⟩
